import Mathlib

/-!
Shallow embedding of the n-gram tokenizer (`tokenizers.py`) and proofs of the
specification's claims about it.

The source is a Python module with a word/punctuation segmenter
(`convert_text_to_words`, backed by the regex `\w+|[^\w\s]`) and an
`NgramTokenizer` class whose `train` builds a frequency-ranked vocabulary of
n-grams and whose `tokenize` converts text into known n-grams or their ids.

Modelling conventions:
* a Python tuple of words (an n-gram) is a `List String`;
* Python dicts (`token_to_id`, `id_to_token`) are association lists in
  insertion order, which is exactly the order Python dicts preserve;
* `defaultdict(int)` counting is an association list updated in place,
  appending new keys at the end (Python insertion order);
* Python's `sorted(..., key=lambda x: x[1], reverse=True)` is a stable sort
  by descending count.  A stable sort's output is uniquely determined by the
  comparator and the input order, so it is embedded as
  `List.insertionSort descFreq`, Mathlib's stable insertion sort;
* Python slices (`words[i:i + n]`, `sorted_ngrams[:vocab_size]`) are embedded
  with Python's semantics for negative bounds (`pySlice`, `pyTakeSlice`);
* Python ints are `Int` where the source can hold negative values
  (`n`, `vocab_size`) and `Nat` for ids produced by `enumerate`.
-/

/-- The word-character class of the regex `\w` under `re.UNICODE` (letters,
digits, underscore), embedded by its ASCII fragment `[A-Za-z0-9_]`.  CPython's
class additionally contains the non-ASCII Unicode alphanumerics, whose table
(the Unicode character database) is not reproducible here; the embedding is
therefore exact for every character below `0x80` and classifies non-ASCII
alphanumerics as non-word.  The class-parametric theorems below do not depend
on this choice. -/
def isWordChar (c : Char) : Bool := c.isAlphanum || c == '_'

/-- The whitespace class of the regex `\s` under `re.UNICODE`, embedded
exactly: CPython's `\s` matches precisely the code points
`\t \n \v \f \r` (`0x09`-`0x0D`), the C0 separators `0x1C`-`0x1F`, space,
NEL (`0x85`), NBSP (`0xA0`), Ogham space (`0x1680`), the typographic spaces
`0x2000`-`0x200A`, line/paragraph separator (`0x2028`/`0x2029`), and
`0x202F`, `0x205F` and `0x3000` — a finite set, reproduced in full. -/
def pyIsSpace (c : Char) : Bool :=
  decide ((0x09 ≤ c.toNat ∧ c.toNat ≤ 0x0D) ∨ (0x1C ≤ c.toNat ∧ c.toNat ≤ 0x1F) ∨
    c.toNat = 0x20 ∨ c.toNat = 0x85 ∨ c.toNat = 0xA0 ∨ c.toNat = 0x1680 ∨
    (0x2000 ≤ c.toNat ∧ c.toNat ≤ 0x200A) ∨ c.toNat = 0x2028 ∨ c.toNat = 0x2029 ∨
    c.toNat = 0x202F ∨ c.toNat = 0x205F ∨ c.toNat = 0x3000)

/-- Left-to-right scanner of `re.findall(r"\w+|[^\w\s]", text)`, parametric in
the two character classes of the regex: `acc` holds the reversed characters of
the word run currently being read.  The word branch is tested first because
the regex tries the alternative `\w+` first at each position. -/
def segmentCharsWith (isWord isSpace : Char → Bool) : List Char → List Char → List String
  | [], acc => if acc.isEmpty then [] else [String.mk acc.reverse]
  | c :: cs, acc =>
    if isWord c then
      segmentCharsWith isWord isSpace cs (c :: acc)
    else
      (if acc.isEmpty then [] else [String.mk acc.reverse]) ++
        (if isSpace c then segmentCharsWith isWord isSpace cs []
         else String.mk [c] :: segmentCharsWith isWord isSpace cs [])

/-- One segmentation pass over a character list, starting outside a run. -/
def segmentWith (isWord isSpace : Char → Bool) (cs : List Char) : List String :=
  segmentCharsWith isWord isSpace cs []

/-- Embedding of `convert_text_to_words` (tokenizers.py line 13): split text into maximal
word-character runs and single punctuation characters, dropping whitespace. -/
def convert_text_to_words (text : String) : List String :=
  segmentWith isWordChar pyIsSpace text.data

/-- An n-gram: a Python tuple of words. -/
abbrev Ngram := List String

/-- Python slice `l[start:stop]` for a non-negative `start` and an arbitrary
integer `stop` (a negative `stop` counts from the end of the list). -/
def pySlice (l : List α) (start : Nat) (stop : Int) : List α :=
  (if stop < 0 then l.take ((l.length : Int) + stop).toNat
   else l.take stop.toNat).drop start

/-- Python slice `l[:stop]` for an arbitrary integer `stop`. -/
def pyTakeSlice (l : List α) (stop : Int) : List α :=
  if stop < 0 then l.take ((l.length : Int) + stop).toNat
  else l.take stop.toNat

/-- The n-gram window extraction
`[tuple(words[i:i + self.n]) for i in range(len(words) - self.n + 1)]`,
shared verbatim by `tokenize` (line 96) and `train` (line 135). -/
def ngramsOf (n : Int) (words : List String) : List Ngram :=
  (List.range ((words.length : Int) - n + 1).toNat).map
    (fun i => pySlice words i ((i : Int) + n))

/-- The state of an `NgramTokenizer` instance: `n` and `vocab_size` from the
constructor, plus the two vocabulary dicts. -/
structure NgramTokenizer where
  n : Int
  vocab_size : Int
  token_to_id : List (Ngram × Nat)
  id_to_token : List (Nat × Ngram)
deriving DecidableEq

/-- Embedding of `NgramTokenizer.__init__(n, vocab_size)` (lines 47-49, via
`Tokenizer.__init__`, lines 25-28): stores the parameters and two empty dicts.
The constructor performs no validation and contains no raising statement, so
the embedding always returns `Except.ok`. -/
def mkNgramTokenizer (n vocab_size : Int) : Except String NgramTokenizer :=
  Except.ok { n := n, vocab_size := vocab_size, token_to_id := [], id_to_token := [] }

/-- Embedding of `token_counts[ngram] += 1` on a `defaultdict(int)`: increment in place,
appending a new key (with count 1) at the end, as Python dicts do. -/
def incrCount (counts : List (Ngram × Nat)) (g : Ngram) : List (Ngram × Nat) :=
  match counts with
  | [] => [(g, 1)]
  | (k, v) :: rest => if k = g then (k, v + 1) :: rest else (k, v) :: incrCount rest g

/-- The counting loop of `train` (lines 130-138): fold over the corpus,
extracting windows per document and bumping their counts. -/
def countNgrams (n : Int) (corpus : List String) : List (Ngram × Nat) :=
  corpus.foldl
    (fun counts text => (ngramsOf n (convert_text_to_words text)).foldl incrCount counts)
    []

/-- The comparator of `sorted(token_counts.items(), key=lambda x: x[1],
reverse=True)`: `a` may precede `b` iff `b`'s count is at most `a`'s. -/
def descFreq : (Ngram × Nat) → (Ngram × Nat) → Prop := fun a b => b.2 ≤ a.2

instance : DecidableRel descFreq := fun a b => Nat.decLe b.2 a.2

/-- Embedding of `sorted_ngrams` before truncation (line 141): stable sort of the counted
items by descending frequency. -/
def sortedCounts (n : Int) (corpus : List String) : List (Ngram × Nat) :=
  (countNgrams n corpus).insertionSort descFreq

/-- Embedding of `sorted_ngrams` after the truncation step (lines 143-145):
`sorted_ngrams[:self.vocab_size]` unless `vocab_size == -1`. -/
def rankedNgrams (n vocab_size : Int) (corpus : List String) : List (Ngram × Nat) :=
  if vocab_size ≠ -1 then pyTakeSlice (sortedCounts n corpus) vocab_size
  else sortedCounts n corpus

/-- Embedding of `NgramTokenizer.train` (lines 106-149): count, sort, truncate, then assign
dense ids by `enumerate` and rebuild both dicts. -/
def NgramTokenizer.train (tok : NgramTokenizer) (corpus : List String) : NgramTokenizer :=
  let sorted_ngrams := rankedNgrams tok.n tok.vocab_size corpus
  let token_to_id := sorted_ngrams.enum.map (fun p => (p.2.1, p.1))
  { tok with
    token_to_id := token_to_id
    id_to_token := token_to_id.map (fun q => (q.2, q.1)) }

/-- Embedding of `NgramTokenizer.tokenize` (lines 51-104) with the flag false:
extract windows, keep those present in `token_to_id`. -/
def NgramTokenizer.tokenizeNgrams (tok : NgramTokenizer) (text : String) : List Ngram :=
  let words := convert_text_to_words text
  let ngrams := ngramsOf tok.n words
  ngrams.filter (fun g => (tok.token_to_id.lookup g).isSome)

/-- Embedding of `NgramTokenizer.tokenize` with the flag true: the comprehension
`[self.token_to_id[ngram] for ngram in ngrams if ngram in self.token_to_id]`
is a `filterMap` through the dict. -/
def NgramTokenizer.tokenizeIds (tok : NgramTokenizer) (text : String) : List Nat :=
  let words := convert_text_to_words text
  let ngrams := ngramsOf tok.n words
  ngrams.filterMap (fun g => tok.token_to_id.lookup g)

/-- The `tokenize` method call as a state transformer: the body only reads
`self`, it contains no assignment to any attribute, so the state-passing
embedding of the method returns the instance's state as it was received. -/
def NgramTokenizer.tokenizeCall (tok : NgramTokenizer) (text : String)
    (return_token_ids : Bool) : (List Ngram ⊕ List Nat) × NgramTokenizer :=
  if return_token_ids then (Sum.inr (tok.tokenizeIds text), tok)
  else (Sum.inl (tok.tokenizeNgrams text), tok)

/-- Embedding of `NgramTokenizer.__len__` (lines 151-155). -/
def NgramTokenizer.len (tok : NgramTokenizer) : Nat :=
  tok.token_to_id.length

/-- The stream of all n-gram windows of a corpus, in corpus-scan order; the
index of an n-gram's first occurrence in this stream is what the spec's
tie-breaking rule refers to. -/
def ngramStream (n : Int) : List String → List Ngram
  | [] => []
  | text :: rest => ngramsOf n (convert_text_to_words text) ++ ngramStream n rest

/-! ### Association-list helper lemmas -/

theorem lookup_mem {α β : Type} [BEq α] [LawfulBEq α] {l : List (α × β)} {a : α} {b : β}
    (h : l.lookup a = some b) : (a, b) ∈ l := by
  induction l with
  | nil => simp [List.lookup] at h
  | cons p rest ih =>
    obtain ⟨k, v⟩ := p
    rw [List.lookup] at h
    cases hbeq : a == k with
    | true =>
      rw [hbeq] at h
      simp only [Option.some.injEq] at h
      have hak : a = k := beq_iff_eq.mp hbeq
      subst hak
      subst h
      exact List.mem_cons_self _ _
    | false =>
      rw [hbeq] at h
      exact List.mem_cons_of_mem _ (ih h)

theorem lookup_of_mem_nodup {α β : Type} [BEq α] [LawfulBEq α] {l : List (α × β)}
    (hnd : (l.map Prod.fst).Nodup) {a : α} {b : β} (h : (a, b) ∈ l) :
    l.lookup a = some b := by
  induction l with
  | nil => simp at h
  | cons p rest ih =>
    obtain ⟨k, v⟩ := p
    simp only [List.map_cons, List.nodup_cons] at hnd
    rcases List.mem_cons.mp h with heq | hmem
    · have hk : a = k := congrArg Prod.fst heq
      have hv : b = v := congrArg Prod.snd heq
      subst hk
      subst hv
      rw [List.lookup, beq_self_eq_true]
    · have hka : a ≠ k := by
        rintro rfl
        exact hnd.1 (List.mem_map.mpr ⟨(a, b), hmem, rfl⟩)
      rw [List.lookup]
      cases hbeq : a == k with
      | true => exact absurd (beq_iff_eq.mp hbeq) hka
      | false => exact ih hnd.2 hmem

theorem mem_value_unique {α β : Type} [BEq α] [LawfulBEq α] {l : List (α × β)}
    (hnd : (l.map Prod.fst).Nodup) {a : α} {b b' : β}
    (h : (a, b) ∈ l) (h' : (a, b') ∈ l) : b = b' := by
  have h1 := lookup_of_mem_nodup hnd h
  have h2 := lookup_of_mem_nodup hnd h'
  rw [h1] at h2
  exact Option.some.inj h2

theorem pos_unique {α β : Type} {l : List (α × β)} (hnd : (l.map Prod.fst).Nodup)
    {a : α} {b b' : β} {i j : Nat}
    (hi : l[i]? = some (a, b)) (hj : l[j]? = some (a, b')) : i = j := by
  have hmi : (l.map Prod.fst)[i]? = some a := by
    rw [List.getElem?_map, hi]; rfl
  have hmj : (l.map Prod.fst)[j]? = some a := by
    rw [List.getElem?_map, hj]; rfl
  have hlen : i < (l.map Prod.fst).length := by
    rw [List.length_map]
    exact (List.getElem?_eq_some.mp hi).1
  exact List.getElem?_inj hlen hnd (hmi.trans hmj.symm)

theorem pair_sublist_of_getElem? {α : Type} {l : List α} {a b : α} :
    ∀ {i j : Nat}, i < j → l[i]? = some a → l[j]? = some b → [a, b].Sublist l := by
  induction l with
  | nil => intro i j _ ha _; simp at ha
  | cons x t ih =>
    intro i j hij ha hb
    cases i with
    | zero =>
      obtain ⟨j', rfl⟩ := Nat.exists_eq_succ_of_ne_zero (by omega : j ≠ 0)
      simp only [List.getElem?_cons_zero, Option.some.injEq] at ha
      simp only [List.getElem?_cons_succ] at hb
      have hbmem : b ∈ t := by
        rcases List.getElem?_eq_some.mp hb with ⟨hlt, hget⟩
        exact hget ▸ List.getElem_mem hlt
      exact ha ▸ List.Sublist.cons₂ _ (List.singleton_sublist.mpr hbmem)
    | succ i' =>
      obtain ⟨j', rfl⟩ := Nat.exists_eq_succ_of_ne_zero (by omega : j ≠ 0)
      simp only [List.getElem?_cons_succ] at ha hb
      exact List.Sublist.cons _ (ih (by omega) ha hb)

theorem getElem?_of_pair_sublist {α : Type} {l : List α} {a b : α}
    (h : [a, b].Sublist l) : ∃ i j : Nat, i < j ∧ l[i]? = some a ∧ l[j]? = some b := by
  induction l with
  | nil => simp at h
  | cons x t ih =>
    cases h with
    | cons _ h' =>
      obtain ⟨i, j, hij, ha, hb⟩ := ih h'
      exact ⟨i + 1, j + 1, by omega, by simpa using ha, by simpa using hb⟩
    | cons₂ _ h' =>
      obtain ⟨j, hj⟩ := List.mem_iff_getElem?.mp (List.singleton_sublist.mp h')
      exact ⟨0, j + 1, by omega, by simp, by simpa using hj⟩

theorem getElem?_take_some {α : Type} {l : List α} {m i : Nat} {a : α}
    (h : (l.take m)[i]? = some a) : l[i]? = some a := by
  rw [List.getElem?_take] at h
  split at h
  · exact h
  · simp at h

/-! ### The id-assignment step (`enumerate`) as a structural recursion -/

/-- Helper `withIds k l`: pair each key of `l` with its position, starting at `k`;
`withIds 0` is the dict comprehension
`{ngram: idx for idx, (ngram, _) in enumerate(sorted_ngrams)}`. -/
def withIds {α β : Type} : Nat → List (α × β) → List (α × Nat)
  | _, [] => []
  | k, (a, _) :: rest => (a, k) :: withIds (k + 1) rest

theorem enumFrom_assign_eq_withIds {α β : Type} :
    ∀ (l : List (α × β)) (k : Nat),
      (l.enumFrom k).map (fun p => (p.2.1, p.1)) = withIds k l := by
  intro l
  induction l with
  | nil => intro k; rfl
  | cons p rest ih =>
    intro k
    obtain ⟨a, b⟩ := p
    simp only [List.enumFrom, List.map_cons, withIds]
    exact congrArg _ (ih (k + 1))

theorem enum_assign_eq_withIds {α β : Type} (l : List (α × β)) :
    l.enum.map (fun p => (p.2.1, p.1)) = withIds 0 l :=
  enumFrom_assign_eq_withIds l 0

theorem withIds_map_fst {α β : Type} :
    ∀ (l : List (α × β)) (k : Nat), (withIds k l).map Prod.fst = l.map Prod.fst := by
  intro l
  induction l with
  | nil => intro k; rfl
  | cons p rest ih =>
    intro k
    obtain ⟨a, b⟩ := p
    simp only [withIds, List.map_cons, ih (k + 1)]

theorem withIds_map_snd {α β : Type} :
    ∀ (l : List (α × β)) (k : Nat), (withIds k l).map Prod.snd = List.range' k l.length := by
  intro l
  induction l with
  | nil => intro k; rfl
  | cons p rest ih =>
    intro k
    obtain ⟨a, b⟩ := p
    simp only [withIds, List.map_cons, ih (k + 1), List.length_cons, List.range'_succ]

theorem withIds_length {α β : Type} :
    ∀ (l : List (α × β)) (k : Nat), (withIds k l).length = l.length := by
  intro l
  induction l with
  | nil => intro k; rfl
  | cons p rest ih =>
    intro k
    obtain ⟨a, b⟩ := p
    simp only [withIds, List.length_cons, ih (k + 1)]

theorem withIds_lookup_eq {α β : Type} [BEq α] [LawfulBEq α] :
    ∀ (l : List (α × β)) (k : Nat) (a : α) (i : Nat) (c : β),
      (l.map Prod.fst).Nodup → l[i]? = some (a, c) →
      (withIds k l).lookup a = some (k + i) := by
  intro l
  induction l with
  | nil => intro k a i c _ h; simp at h
  | cons p rest ih =>
    intro k a i c hnd h
    obtain ⟨b, cb⟩ := p
    simp only [List.map_cons, List.nodup_cons] at hnd
    cases i with
    | zero =>
      simp only [List.getElem?_cons_zero, Option.some.injEq] at h
      have hab : a = b := (congrArg Prod.fst h.symm)
      subst hab
      rw [withIds, List.lookup, beq_self_eq_true]
      simp
    | succ i' =>
      simp only [List.getElem?_cons_succ] at h
      have hmem : a ∈ rest.map Prod.fst := by
        rcases List.getElem?_eq_some.mp h with ⟨hlt, hget⟩
        exact List.mem_map.mpr ⟨(a, c), hget ▸ List.getElem_mem hlt, rfl⟩
      have hba : ¬(a == b) = true := by
        rw [beq_iff_eq]
        rintro rfl
        exact hnd.1 hmem
      rw [withIds, List.lookup]
      cases hbeq : a == b with
      | true => exact absurd hbeq hba
      | false =>
        have := ih (k + 1) a i' c hnd.2 h
        rw [this]
        exact congrArg some (by omega)

theorem withIds_lookup_inv {α β : Type} [BEq α] [LawfulBEq α] :
    ∀ (l : List (α × β)) (k : Nat) (a : α) (j : Nat),
      (withIds k l).lookup a = some j →
      ∃ (i : Nat) (c : β), j = k + i ∧ l[i]? = some (a, c) := by
  intro l
  induction l with
  | nil => intro k a j h; simp [withIds, List.lookup] at h
  | cons p rest ih =>
    intro k a j h
    obtain ⟨b, cb⟩ := p
    rw [withIds, List.lookup] at h
    cases hbeq : a == b with
    | true =>
      rw [hbeq] at h
      have hab : a = b := beq_iff_eq.mp hbeq
      subst hab
      simp only [Option.some.injEq] at h
      exact ⟨0, cb, by omega, by simp⟩
    | false =>
      rw [hbeq] at h
      obtain ⟨i, c, hj, hget⟩ := ih (k + 1) a j h
      exact ⟨i + 1, c, by omega, by simpa using hget⟩

theorem swap_withIds_lookup {α β : Type} :
    ∀ (l : List (α × β)) (k : Nat) (j : Nat) (a : α),
      ((withIds k l).map (fun q => (q.2, q.1))).lookup j = some a ↔
        ∃ (i : Nat) (c : β), j = k + i ∧ l[i]? = some (a, c) := by
  intro l
  induction l with
  | nil =>
    intro k j a
    simp [withIds, List.lookup]
  | cons p rest ih =>
    intro k j a
    obtain ⟨b, cb⟩ := p
    rw [withIds, List.map_cons, List.lookup]
    cases hbeq : j == k with
    | true =>
      have hjk : j = k := by simpa using hbeq
      subst hjk
      simp only [Option.some.injEq]
      constructor
      · rintro rfl
        exact ⟨0, cb, by omega, by simp⟩
      · rintro ⟨i, c, hk, hget⟩
        have hi : i = 0 := by omega
        subst hi
        simp only [List.getElem?_cons_zero, Option.some.injEq] at hget
        exact congrArg Prod.fst hget
    | false =>
      have hjk : j ≠ k := by simpa using hbeq
      rw [ih (k + 1) j a]
      constructor
      · rintro ⟨i, c, hj, hget⟩
        exact ⟨i + 1, c, by omega, by simpa using hget⟩
      · rintro ⟨i, c, hj, hget⟩
        cases i with
        | zero => omega
        | succ i' =>
          simp only [List.getElem?_cons_succ] at hget
          exact ⟨i', c, by omega, hget⟩

theorem train_token_to_id (tok : NgramTokenizer) (corpus : List String) :
    (tok.train corpus).token_to_id = withIds 0 (rankedNgrams tok.n tok.vocab_size corpus) := by
  simp only [NgramTokenizer.train]
  exact enum_assign_eq_withIds _

theorem train_id_to_token (tok : NgramTokenizer) (corpus : List String) :
    (tok.train corpus).id_to_token =
      (withIds 0 (rankedNgrams tok.n tok.vocab_size corpus)).map (fun q => (q.2, q.1)) := by
  simp only [NgramTokenizer.train]
  exact congrArg _ (enum_assign_eq_withIds _)

theorem train_n (tok : NgramTokenizer) (corpus : List String) :
    (tok.train corpus).n = tok.n := rfl

theorem train_vocab_size (tok : NgramTokenizer) (corpus : List String) :
    (tok.train corpus).vocab_size = tok.vocab_size := rfl

/-! ### Counting: key order, distinctness, and the occurrence stream -/

theorem incrCount_keys (c : List (Ngram × Nat)) (g : Ngram) :
    (incrCount c g).map Prod.fst =
      if g ∈ c.map Prod.fst then c.map Prod.fst else c.map Prod.fst ++ [g] := by
  induction c with
  | nil => simp [incrCount]
  | cons p rest ih =>
    obtain ⟨k, v⟩ := p
    by_cases hkg : k = g
    · subst hkg
      simp [incrCount]
    · rw [incrCount]
      rw [if_neg hkg]
      simp only [List.map_cons, ih]
      by_cases hmem : g ∈ rest.map Prod.fst
      · rw [if_pos hmem, if_pos (by simp [hmem])]
      · rw [if_neg hmem, if_neg (by simp [hmem, Ne.symm hkg]), List.cons_append]

theorem countNgrams_eq_stream_foldl (n : Int) :
    ∀ (corpus : List String) (c : List (Ngram × Nat)),
      corpus.foldl
        (fun counts text => (ngramsOf n (convert_text_to_words text)).foldl incrCount counts) c
      = (ngramStream n corpus).foldl incrCount c := by
  intro corpus
  induction corpus with
  | nil => intro c; rfl
  | cons t rest ih =>
    intro c
    rw [List.foldl_cons, ih, ngramStream, List.foldl_append]

theorem countNgrams_eq_stream (n : Int) (corpus : List String) :
    countNgrams n corpus = (ngramStream n corpus).foldl incrCount [] :=
  countNgrams_eq_stream_foldl n corpus []

/-- The key list of the counting dict, built directly over the occurrence
stream: a key is appended the first time it is seen. -/
def scanKeys : List Ngram → List Ngram → List Ngram
  | ks, [] => ks
  | ks, g :: s => scanKeys (if g ∈ ks then ks else ks ++ [g]) s

theorem foldl_incrCount_keys :
    ∀ (s : List Ngram) (c : List (Ngram × Nat)),
      (s.foldl incrCount c).map Prod.fst = scanKeys (c.map Prod.fst) s := by
  intro s
  induction s with
  | nil => intro c; rfl
  | cons g s' ih =>
    intro c
    rw [List.foldl_cons, ih, scanKeys, incrCount_keys]

theorem scanKeys_suffix_exists :
    ∀ (s ks : List Ngram), ∃ t, scanKeys ks s = ks ++ t := by
  intro s
  induction s with
  | nil => intro ks; exact ⟨[], (List.append_nil ks).symm⟩
  | cons g s' ih =>
    intro ks
    rw [scanKeys]
    by_cases hg : g ∈ ks
    · rw [if_pos hg]; exact ih ks
    · rw [if_neg hg]
      obtain ⟨t, ht⟩ := ih (ks ++ [g])
      exact ⟨[g] ++ t, by rw [ht, List.append_assoc]⟩

theorem scanKeys_nodup :
    ∀ (s ks : List Ngram), ks.Nodup → (scanKeys ks s).Nodup := by
  intro s
  induction s with
  | nil => intro ks h; exact h
  | cons g s' ih =>
    intro ks h
    rw [scanKeys]
    by_cases hg : g ∈ ks
    · rw [if_pos hg]; exact ih ks h
    · rw [if_neg hg]
      refine ih (ks ++ [g]) ?_
      rw [List.nodup_append]
      refine ⟨h, List.nodup_singleton g, ?_⟩
      intro a ha
      simp only [List.mem_singleton]
      rintro rfl
      exact hg ha

theorem scanKeys_mem :
    ∀ (s ks : List Ngram) (a : Ngram), a ∈ scanKeys ks s ↔ a ∈ ks ∨ a ∈ s := by
  intro s
  induction s with
  | nil => intro ks a; simp [scanKeys]
  | cons g s' ih =>
    intro ks a
    rw [scanKeys]
    by_cases hg : g ∈ ks
    · rw [if_pos hg, ih ks a]
      constructor
      · rintro (h | h)
        · exact Or.inl h
        · exact Or.inr (List.mem_cons_of_mem _ h)
      · rintro (h | h)
        · exact Or.inl h
        · rcases List.mem_cons.mp h with rfl | h'
          · exact Or.inl hg
          · exact Or.inr h'
    · rw [if_neg hg, ih (ks ++ [g]) a]
      simp only [List.mem_append, List.mem_singleton, List.mem_cons]
      tauto

theorem counts_keys_nodup (n : Int) (corpus : List String) :
    ((countNgrams n corpus).map Prod.fst).Nodup := by
  rw [countNgrams_eq_stream, foldl_incrCount_keys]
  exact scanKeys_nodup _ _ List.nodup_nil

theorem counts_keys_mem (n : Int) (corpus : List String) (g : Ngram) :
    g ∈ (countNgrams n corpus).map Prod.fst ↔ g ∈ ngramStream n corpus := by
  rw [countNgrams_eq_stream, foldl_incrCount_keys]
  rw [scanKeys_mem]
  simp

theorem nodup_append_singleton {α : Type} {ks : List α} {x : α}
    (h : ks.Nodup) (hx : x ∉ ks) : (ks ++ [x]).Nodup := by
  rw [List.nodup_append]
  refine ⟨h, List.nodup_singleton x, ?_⟩
  intro a ha
  simp only [List.mem_singleton]
  rintro rfl
  exact hx ha

/-! `List.indexOf` lemmas stated for an arbitrary lawful `BEq` instance (the
Mathlib versions fix the `DecidableEq`-derived instance, which does not match
the instance inferred for `Ngram`). -/

theorem indexOf_cons_self_beq {α : Type} [BEq α] [LawfulBEq α] (a : α) (l : List α) :
    List.indexOf a (a :: l) = 0 := by
  simp [List.indexOf, List.findIdx_cons]

theorem indexOf_cons_ne_beq {α : Type} [BEq α] [LawfulBEq α] {g a : α} (l : List α)
    (h : g ≠ a) : List.indexOf a (g :: l) = List.indexOf a l + 1 := by
  have : (g == a) = false := beq_eq_false_iff_ne.mpr h
  simp [List.indexOf, List.findIdx_cons, this]

theorem indexOf_append_mem_beq {α : Type} [BEq α] [LawfulBEq α] {a : α} {l₁ : List α}
    (l₂ : List α) (h : a ∈ l₁) : List.indexOf a (l₁ ++ l₂) = List.indexOf a l₁ := by
  induction l₁ with
  | nil => simp at h
  | cons x t ih =>
    cases hbeq : x == a with
    | true =>
      have hx : x = a := beq_iff_eq.mp hbeq
      subst hx
      rw [List.cons_append, indexOf_cons_self_beq, indexOf_cons_self_beq]
    | false =>
      have hx : x ≠ a := beq_eq_false_iff_ne.mp hbeq
      have ht : a ∈ t := by
        rcases List.mem_cons.mp h with rfl | h'
        · exact absurd rfl hx
        · exact h'
      rw [List.cons_append, indexOf_cons_ne_beq _ hx, indexOf_cons_ne_beq _ hx, ih ht]

theorem indexOf_append_not_mem_beq {α : Type} [BEq α] [LawfulBEq α] {a : α} {l₁ : List α}
    (l₂ : List α) (h : a ∉ l₁) :
    List.indexOf a (l₁ ++ l₂) = l₁.length + List.indexOf a l₂ := by
  induction l₁ with
  | nil => simp
  | cons x t ih =>
    have hx : x ≠ a := by
      rintro rfl
      exact h (List.mem_cons_self _ _)
    have ht : a ∉ t := fun h' => h (List.mem_cons_of_mem _ h')
    rw [List.cons_append, indexOf_cons_ne_beq _ hx, ih ht, List.length_cons]
    omega

theorem indexOf_lt_length_beq {α : Type} [BEq α] [LawfulBEq α] {a : α} {l : List α}
    (h : a ∈ l) : List.indexOf a l < l.length := by
  induction l with
  | nil => simp at h
  | cons x t ih =>
    cases hbeq : x == a with
    | true =>
      have hx : x = a := beq_iff_eq.mp hbeq
      subst hx
      rw [indexOf_cons_self_beq]
      simp
    | false =>
      have hx : x ≠ a := beq_eq_false_iff_ne.mp hbeq
      have ht : a ∈ t := by
        rcases List.mem_cons.mp h with rfl | h'
        · exact absurd rfl hx
        · exact h'
      rw [indexOf_cons_ne_beq _ hx, List.length_cons]
      exact Nat.succ_lt_succ (ih ht)

theorem getElem?_indexOf_beq {α : Type} [BEq α] [LawfulBEq α] {a : α} {l : List α}
    (h : a ∈ l) : l[List.indexOf a l]? = some a := by
  induction l with
  | nil => simp at h
  | cons x t ih =>
    cases hbeq : x == a with
    | true =>
      have hx : x = a := beq_iff_eq.mp hbeq
      subst hx
      rw [indexOf_cons_self_beq]
      simp
    | false =>
      have hx : x ≠ a := beq_eq_false_iff_ne.mp hbeq
      have ht : a ∈ t := by
        rcases List.mem_cons.mp h with rfl | h'
        · exact absurd rfl hx
        · exact h'
      rw [indexOf_cons_ne_beq _ hx]
      simpa using ih ht

/-- First-occurrence order is preserved by the key scan: if `A`'s first
occurrence in the stream `s` precedes `B`'s (or `A` is already a key while `B`
is not yet), then `A` ends up strictly before `B` in the final key list. -/
theorem scanKeys_index_lt :
    ∀ (s ks : List Ngram), ks.Nodup → ∀ A B : Ngram, A ≠ B →
      ((A ∈ ks ∧ B ∉ ks ∧ B ∈ s) ∨
       (A ∉ ks ∧ B ∉ ks ∧ A ∈ s ∧ B ∈ s ∧ List.indexOf A s < List.indexOf B s)) →
      List.indexOf A (scanKeys ks s) < List.indexOf B (scanKeys ks s) := by
  intro s
  induction s with
  | nil =>
    intro ks hnd A B hAB h
    rcases h with ⟨_, _, hB⟩ | ⟨_, _, hA, _, _⟩
    · simp at hB
    · simp at hA
  | cons g s' ih =>
    intro ks hnd A B hAB h
    rw [scanKeys]
    rcases h with ⟨hAks, hBks, hBmem⟩ | ⟨hAks, hBks, hAmem, hBmem, hidx⟩
    · by_cases hgB : g = B
      · subst hgB
        rw [if_neg hBks]
        obtain ⟨t, ht⟩ := scanKeys_suffix_exists s' (ks ++ [g])
        rw [ht]
        have hA1 : A ∈ ks ++ [g] := List.mem_append_left _ hAks
        have hB1 : g ∈ ks ++ [g] := List.mem_append_right _ (List.mem_singleton.mpr rfl)
        rw [indexOf_append_mem_beq _ hA1, indexOf_append_mem_beq _ hB1]
        rw [indexOf_append_mem_beq _ hAks, indexOf_append_not_mem_beq _ hBks]
        have hlt : List.indexOf A ks < ks.length := indexOf_lt_length_beq hAks
        rw [indexOf_cons_self_beq]
        omega
      · have hB' : B ∈ s' := by
          rcases List.mem_cons.mp hBmem with rfl | h'
          · exact absurd rfl hgB
          · exact h'
        by_cases hgks : g ∈ ks
        · rw [if_pos hgks]
          exact ih ks hnd A B hAB (Or.inl ⟨hAks, hBks, hB'⟩)
        · rw [if_neg hgks]
          refine ih (ks ++ [g]) (nodup_append_singleton hnd hgks) A B hAB (Or.inl ⟨?_, ?_, hB'⟩)
          · exact List.mem_append_left _ hAks
          · intro hmem
            rcases List.mem_append.mp hmem with h' | h'
            · exact hBks h'
            · exact hgB (List.mem_singleton.mp h').symm
    · by_cases hgA : g = A
      · subst hgA
        rw [if_neg hAks]
        have hB' : B ∈ s' := by
          rcases List.mem_cons.mp hBmem with rfl | h'
          · exact absurd rfl (Ne.symm hAB)
          · exact h'
        refine ih (ks ++ [g]) (nodup_append_singleton hnd hAks) g B hAB (Or.inl ⟨?_, ?_, hB'⟩)
        · exact List.mem_append_right _ (List.mem_singleton.mpr rfl)
        · intro hmem
          rcases List.mem_append.mp hmem with h' | h'
          · exact hBks h'
          · exact hAB (List.mem_singleton.mp h').symm
      · have hA' : A ∈ s' := by
          rcases List.mem_cons.mp hAmem with rfl | h'
          · exact absurd rfl hgA
          · exact h'
        have hidxA : List.indexOf A (g :: s') = List.indexOf A s' + 1 :=
          indexOf_cons_ne_beq s' hgA
        by_cases hgB : g = B
        · subst hgB
          rw [indexOf_cons_self_beq, hidxA] at hidx
          omega
        · have hidxB : List.indexOf B (g :: s') = List.indexOf B s' + 1 :=
            indexOf_cons_ne_beq s' hgB
          have hidx' : List.indexOf A s' < List.indexOf B s' := by
            rw [hidxA, hidxB] at hidx
            omega
          have hB' : B ∈ s' := by
            rcases List.mem_cons.mp hBmem with rfl | h'
            · exact absurd rfl hgB
            · exact h'
          by_cases hgks : g ∈ ks
          · rw [if_pos hgks]
            exact ih ks hnd A B hAB (Or.inr ⟨hAks, hBks, hA', hB', hidx'⟩)
          · rw [if_neg hgks]
            refine ih (ks ++ [g]) (nodup_append_singleton hnd hgks) A B hAB
              (Or.inr ⟨?_, ?_, hA', hB', hidx'⟩)
            · intro hmem
              rcases List.mem_append.mp hmem with h' | h'
              · exact hAks h'
              · exact hgA (List.mem_singleton.mp h').symm
            · intro hmem
              rcases List.mem_append.mp hmem with h' | h'
              · exact hBks h'
              · exact hgB (List.mem_singleton.mp h').symm

/-! ### Facts about the sorted and truncated ranking -/

instance : IsTotal (Ngram × Nat) descFreq :=
  ⟨fun a b => Nat.le_total b.2 a.2⟩

instance : IsTrans (Ngram × Nat) descFreq :=
  ⟨fun _ _ _ hab hbc => Nat.le_trans hbc hab⟩

theorem sortedCounts_pairwise (n : Int) (corpus : List String) :
    (sortedCounts n corpus).Pairwise descFreq :=
  List.sorted_insertionSort descFreq (countNgrams n corpus)

theorem sortedCounts_perm (n : Int) (corpus : List String) :
    (sortedCounts n corpus).Perm (countNgrams n corpus) :=
  List.perm_insertionSort descFreq (countNgrams n corpus)

theorem sorted_keys_nodup (n : Int) (corpus : List String) :
    ((sortedCounts n corpus).map Prod.fst).Nodup :=
  ((sortedCounts_perm n corpus).map Prod.fst).nodup_iff.mpr (counts_keys_nodup n corpus)

theorem rankedNgrams_eq_take (n vocab_size : Int) (corpus : List String) :
    ∃ m, rankedNgrams n vocab_size corpus = (sortedCounts n corpus).take m := by
  rw [rankedNgrams]
  by_cases hv : vocab_size ≠ -1
  · rw [if_pos hv, pyTakeSlice]
    by_cases hneg : vocab_size < 0
    · rw [if_pos hneg]
      exact ⟨_, rfl⟩
    · rw [if_neg hneg]
      exact ⟨_, rfl⟩
  · rw [if_neg hv]
    exact ⟨(sortedCounts n corpus).length, (List.take_length _).symm⟩

theorem train_lookup_position (tok : NgramTokenizer) (corpus : List String)
    {A : Ngram} {idA : Nat}
    (hA : ((tok.train corpus).token_to_id).lookup A = some idA) :
    ∃ c, (sortedCounts tok.n corpus)[idA]? = some (A, c) := by
  rw [train_token_to_id] at hA
  obtain ⟨i, c, hid, hget⟩ := withIds_lookup_inv _ 0 A idA hA
  have hiA : i = idA := by omega
  subst hiA
  obtain ⟨m, hm⟩ := rankedNgrams_eq_take tok.n tok.vocab_size corpus
  rw [hm] at hget
  exact ⟨c, getElem?_take_some hget⟩

theorem sorted_entry_count (n : Int) (corpus : List String) {A : Ngram} {cA c i : Nat}
    (hcA : (countNgrams n corpus).lookup A = some cA)
    (hget : (sortedCounts n corpus)[i]? = some (A, c)) : c = cA := by
  have hmem : (A, c) ∈ countNgrams n corpus := by
    refine (sortedCounts_perm n corpus).mem_iff.mp ?_
    rcases List.getElem?_eq_some.mp hget with ⟨hlt, hv⟩
    exact hv ▸ List.getElem_mem hlt
  exact mem_value_unique (counts_keys_nodup n corpus) hmem (lookup_mem hcA)

/-- C1: after `train`, ids respect descending frequency — if the counted
frequency of retained n-gram `A` exceeds that of retained `B`, then `A`'s id
is smaller — and when the frequencies are equal, the n-gram whose first
occurrence comes earlier in the corpus scan (the window stream) receives the
smaller id. -/
theorem train_frequency_ranking (tok : NgramTokenizer) (corpus : List String)
    (A B : Ngram) (idA idB cA cB : Nat)
    (hA : ((tok.train corpus).token_to_id).lookup A = some idA)
    (hB : ((tok.train corpus).token_to_id).lookup B = some idB)
    (hcA : (countNgrams tok.n corpus).lookup A = some cA)
    (hcB : (countNgrams tok.n corpus).lookup B = some cB) :
    (cB < cA → idA < idB) ∧
    (cA = cB →
      List.indexOf A (ngramStream tok.n corpus) < List.indexOf B (ngramStream tok.n corpus) →
      idA < idB) := by
  obtain ⟨cA', hgetA⟩ := train_lookup_position tok corpus hA
  obtain ⟨cB', hgetB⟩ := train_lookup_position tok corpus hB
  have hA' : cA' = cA := sorted_entry_count tok.n corpus hcA hgetA
  have hB' : cB' = cB := sorted_entry_count tok.n corpus hcB hgetB
  rw [hA'] at hgetA
  rw [hB'] at hgetB
  clear hA' hB'
  constructor
  · intro hlt
    by_contra hcon
    push_neg at hcon
    rcases Nat.eq_or_lt_of_le hcon with heq | hgt
    · subst heq
      rw [hgetA] at hgetB
      have : cA = cB := congrArg Prod.snd (Option.some.inj hgetB)
      omega
    · have hpw := (List.pairwise_iff_getElem).mp (sortedCounts_pairwise tok.n corpus)
      rcases List.getElem?_eq_some.mp hgetA with ⟨hltA, hvA⟩
      rcases List.getElem?_eq_some.mp hgetB with ⟨hltB, hvB⟩
      have hd := hpw idB idA hltB hltA hgt
      rw [hvA, hvB] at hd
      have : cA ≤ cB := hd
      omega
  · intro hceq hstream
    have hAB : A ≠ B := by
      rintro rfl
      exact absurd hstream (lt_irrefl _)
    have hkeys : (countNgrams tok.n corpus).map Prod.fst
        = scanKeys [] (ngramStream tok.n corpus) := by
      rw [countNgrams_eq_stream, foldl_incrCount_keys]
      rfl
    have hAs : A ∈ ngramStream tok.n corpus :=
      (counts_keys_mem tok.n corpus A).mp
        (List.mem_map.mpr ⟨(A, cA), lookup_mem hcA, rfl⟩)
    have hBs : B ∈ ngramStream tok.n corpus :=
      (counts_keys_mem tok.n corpus B).mp
        (List.mem_map.mpr ⟨(B, cB), lookup_mem hcB, rfl⟩)
    have horder := scanKeys_index_lt (ngramStream tok.n corpus) [] List.nodup_nil A B hAB
      (Or.inr ⟨List.not_mem_nil A, List.not_mem_nil B, hAs, hBs, hstream⟩)
    rw [← hkeys] at horder
    have hAk : A ∈ (countNgrams tok.n corpus).map Prod.fst :=
      List.mem_map.mpr ⟨(A, cA), lookup_mem hcA, rfl⟩
    have hBk : B ∈ (countNgrams tok.n corpus).map Prod.fst :=
      List.mem_map.mpr ⟨(B, cB), lookup_mem hcB, rfl⟩
    obtain ⟨pA, hpA, hpA1⟩ :=
      Option.map_eq_some'.mp
        (by
          rw [← List.getElem?_map]
          exact getElem?_indexOf_beq hAk)
    obtain ⟨pB, hpB, hpB1⟩ :=
      Option.map_eq_some'.mp
        (by
          rw [← List.getElem?_map]
          exact getElem?_indexOf_beq hBk)
    have hpA2 : pA = (A, cA) := by
      have hmemA : pA ∈ countNgrams tok.n corpus := by
        rcases List.getElem?_eq_some.mp hpA with ⟨hlt, hv⟩
        exact hv ▸ List.getElem_mem hlt
      have : pA = (A, pA.2) := by
        rw [← hpA1]
      have hval : pA.2 = cA :=
        mem_value_unique (counts_keys_nodup tok.n corpus) (this ▸ hmemA) (lookup_mem hcA)
      rw [this, hval]
    have hpB2 : pB = (B, cB) := by
      have hmemB : pB ∈ countNgrams tok.n corpus := by
        rcases List.getElem?_eq_some.mp hpB with ⟨hlt, hv⟩
        exact hv ▸ List.getElem_mem hlt
      have : pB = (B, pB.2) := by
        rw [← hpB1]
      have hval : pB.2 = cB :=
        mem_value_unique (counts_keys_nodup tok.n corpus) (this ▸ hmemB) (lookup_mem hcB)
      rw [this, hval]
    rw [hpA2] at hpA
    rw [hpB2] at hpB
    have hpair : [(A, cA), (B, cB)].Sublist (countNgrams tok.n corpus) :=
      pair_sublist_of_getElem? horder hpA hpB
    have hdesc : descFreq (A, cA) (B, cB) := le_of_eq hceq.symm
    have hsorted : [(A, cA), (B, cB)].Sublist (sortedCounts tok.n corpus) :=
      List.pair_sublist_insertionSort hdesc hpair
    obtain ⟨i, j, hij, hAi, hBj⟩ := getElem?_of_pair_sublist hsorted
    have hiA : i = idA := pos_unique (sorted_keys_nodup tok.n corpus) hAi hgetA
    have hjB : j = idB := pos_unique (sorted_keys_nodup tok.n corpus) hBj hgetB
    omega

/-- Witness for C1 at a concrete corpus with a frequency tie: with `n = 1` on
`["b a b a"]` both unigrams occur twice, and `"b"` (first occurrence earlier)
receives the smaller id. -/
theorem train_frequency_ranking_witness :
    ((NgramTokenizer.train ⟨1, -1, [], []⟩ ["b a b a"]).token_to_id).lookup ["b"] = some 0
    ∧ ((NgramTokenizer.train ⟨1, -1, [], []⟩ ["b a b a"]).token_to_id).lookup ["a"] = some 1
    ∧ (countNgrams 1 ["b a b a"]).lookup ["b"] = some 2
    ∧ (countNgrams 1 ["b a b a"]).lookup ["a"] = some 2
    ∧ ((2 < 2 → 0 < 1) ∧
       (2 = 2 →
         List.indexOf ["b"] (ngramStream 1 ["b a b a"]) <
           List.indexOf ["a"] (ngramStream 1 ["b a b a"]) →
         (0 : Nat) < 1)) :=
  ⟨by decide, by decide, by decide, by decide,
    train_frequency_ranking ⟨1, -1, [], []⟩ ["b a b a"] ["b"] ["a"] 0 1 2 2
      (by decide) (by decide) (by decide) (by decide)⟩

theorem ranked_keys_nodup (n vocab_size : Int) (corpus : List String) :
    ((rankedNgrams n vocab_size corpus).map Prod.fst).Nodup := by
  obtain ⟨m, hm⟩ := rankedNgrams_eq_take n vocab_size corpus
  rw [hm, List.map_take]
  exact (List.take_sublist _ _).nodup (sorted_keys_nodup n corpus)

/-- C2: after `train`, `token_to_id` and `id_to_token` are exact inverses,
and the id set of each map is exactly `{0, …, len-1}`, in order, with no gaps
and no duplicates. -/
theorem train_maps_inverse (tok : NgramTokenizer) (corpus : List String) :
    (∀ (g : Ngram) (i : Nat),
        ((tok.train corpus).token_to_id).lookup g = some i ↔
          ((tok.train corpus).id_to_token).lookup i = some g)
    ∧ ((tok.train corpus).token_to_id).map Prod.snd = List.range (tok.train corpus).len
    ∧ ((tok.train corpus).id_to_token).map Prod.fst = List.range (tok.train corpus).len := by
  have hlen : (tok.train corpus).len = (rankedNgrams tok.n tok.vocab_size corpus).length := by
    rw [NgramTokenizer.len, train_token_to_id, withIds_length]
  refine ⟨?_, ?_, ?_⟩
  · intro g i
    rw [train_token_to_id, train_id_to_token]
    constructor
    · intro h
      obtain ⟨i', c, hid, hget⟩ := withIds_lookup_inv _ 0 g i h
      exact (swap_withIds_lookup _ 0 i g).mpr ⟨i', c, hid, hget⟩
    · intro h
      obtain ⟨i', c, hid, hget⟩ := (swap_withIds_lookup _ 0 i g).mp h
      have hi : i' = i := by omega
      subst hi
      have := withIds_lookup_eq _ 0 g i' c
        (ranked_keys_nodup tok.n tok.vocab_size corpus) hget
      simpa using this
  · rw [train_token_to_id, withIds_map_snd, hlen, List.range_eq_range']
  · rw [train_id_to_token, List.map_map]
    have : (Prod.fst ∘ fun q : Ngram × Nat => (q.2, q.1)) = Prod.snd := rfl
    rw [this, withIds_map_snd, hlen, List.range_eq_range']

/-! ### Tokenize as a filter over the window sequence -/

theorem lookup_isSome_iff {α β : Type} [BEq α] [LawfulBEq α] (l : List (α × β)) (a : α) :
    (l.lookup a).isSome = true ↔ a ∈ l.map Prod.fst := by
  induction l with
  | nil => simp [List.lookup]
  | cons p rest ih =>
    obtain ⟨k, v⟩ := p
    rw [List.lookup]
    cases hbeq : a == k with
    | true =>
      have : a = k := beq_iff_eq.mp hbeq
      subst this
      simp
    | false =>
      have hak : a ≠ k := beq_eq_false_iff_ne.mp hbeq
      change (List.lookup a rest).isSome = true ↔ _
      rw [ih]
      simp [hak]

theorem filter_isSome_forall₂_filterMap {α β : Type} (f : α → Option β) :
    ∀ l : List α,
      List.Forall₂ (fun a b => f a = some b)
        (l.filter (fun a => (f a).isSome)) (l.filterMap f) := by
  intro l
  induction l with
  | nil => simp
  | cons x t ih =>
    cases hf : f x with
    | none =>
      simp only [List.filter_cons, List.filterMap_cons, hf, Option.isSome_none,
        Bool.false_eq_true, if_false]
      exact ih
    | some b =>
      simp only [List.filter_cons, List.filterMap_cons, hf, Option.isSome_some, if_true]
      exact List.Forall₂.cons hf ih

/-- C3: `tokenize` returns exactly the subsequence of the text's length-n
windows whose n-grams are keys of `token_to_id`, in original relative order;
in id mode the same filtered sequence is mapped through `token_to_id`; no
n-gram or id outside the vocabulary is returned; and on a freshly constructed
(never trained) instance the result is empty for any input. -/
theorem tokenize_filter_spec (tok : NgramTokenizer) (text : String) :
    tok.tokenizeNgrams text =
      (ngramsOf tok.n (convert_text_to_words text)).filter
        (fun g => decide (g ∈ tok.token_to_id.map Prod.fst))
    ∧ List.Forall₂ (fun g i => tok.token_to_id.lookup g = some i)
        (tok.tokenizeNgrams text) (tok.tokenizeIds text)
    ∧ (∀ g ∈ tok.tokenizeNgrams text, g ∈ tok.token_to_id.map Prod.fst)
    ∧ (∀ i ∈ tok.tokenizeIds text, ∃ g, (g, i) ∈ tok.token_to_id)
    ∧ (∀ (nv vv : Int) (t₀ : NgramTokenizer), mkNgramTokenizer nv vv = Except.ok t₀ →
        t₀.tokenizeNgrams text = [] ∧ t₀.tokenizeIds text = []) := by
  refine ⟨?_, ?_, ?_, ?_, ?_⟩
  · rw [NgramTokenizer.tokenizeNgrams]
    refine List.filter_congr ?_
    intro g _
    rw [Bool.eq_iff_iff, decide_eq_true_eq]
    exact lookup_isSome_iff _ g
  · exact filter_isSome_forall₂_filterMap _ _
  · intro g hg
    rw [NgramTokenizer.tokenizeNgrams] at hg
    have := List.of_mem_filter hg
    exact (lookup_isSome_iff _ g).mp this
  · intro i hi
    rw [NgramTokenizer.tokenizeIds] at hi
    obtain ⟨g, _, hg⟩ := List.mem_filterMap.mp hi
    exact ⟨g, lookup_mem hg⟩
  · intro nv vv t₀ h
    rw [mkNgramTokenizer] at h
    have ht : t₀ = ⟨nv, vv, [], []⟩ := (Except.ok.inj h).symm
    subst ht
    constructor
    · rw [NgramTokenizer.tokenizeNgrams]
      exact List.filter_eq_nil_iff.mpr (fun a _ => by simp [List.lookup])
    · rw [NgramTokenizer.tokenizeIds]
      exact List.filterMap_eq_nil_iff.mpr (fun a _ => rfl)

/-- Witness for C3: a freshly constructed tokenizer yields empty output for a
nonempty input text. -/
theorem tokenize_filter_spec_witness :
    NgramTokenizer.tokenizeNgrams ⟨2, 50, [], []⟩ "a b c" = []
    ∧ NgramTokenizer.tokenizeIds ⟨2, 50, [], []⟩ "a b c" = [] :=
  (tokenize_filter_spec ⟨2, 50, [], []⟩ "a b c").2.2.2.2 2 50 ⟨2, 50, [], []⟩ rfl

/-! ### Vocabulary bounding -/

/-- Counterexample to C4 as stated: `vocab_size = -2` is "bounded" in the
claim's sense (it is not the sentinel `-1`), yet after training on
`["a b c a"]` the vocabulary has one entry and `1 ≤ -2` fails. -/
theorem vocab_bound_counterexample :
    (⟨1, -2, [], []⟩ : NgramTokenizer).vocab_size ≠ -1
    ∧ ¬ (((NgramTokenizer.train ⟨1, -2, [], []⟩ ["a b c a"]).len : Int) ≤
        (⟨1, -2, [], []⟩ : NgramTokenizer).vocab_size) := by
  constructor
  · decide
  · decide

/-- C4 (amended): when `vocab_size` is non-negative, `len` after `train`
is at most `vocab_size`; when `vocab_size` is the unbounded sentinel `-1`,
every n-gram observed in the training corpus is in the vocabulary.
(For negative `vocab_size` other than `-1` the bound fails, see the
counterexample.) -/
theorem train_vocab_bound (tok : NgramTokenizer) (corpus : List String) :
    (0 ≤ tok.vocab_size → ((tok.train corpus).len : Int) ≤ tok.vocab_size)
    ∧ (tok.vocab_size = -1 →
        ∀ g ∈ ngramStream tok.n corpus,
          g ∈ ((tok.train corpus).token_to_id).map Prod.fst) := by
  constructor
  · intro hv
    have hlen : (tok.train corpus).len = (rankedNgrams tok.n tok.vocab_size corpus).length := by
      rw [NgramTokenizer.len, train_token_to_id, withIds_length]
    rw [hlen, rankedNgrams, if_pos (by omega : tok.vocab_size ≠ -1), pyTakeSlice,
      if_neg (by omega : ¬ tok.vocab_size < 0), List.length_take]
    have h1 : min tok.vocab_size.toNat (sortedCounts tok.n corpus).length
        ≤ tok.vocab_size.toNat := Nat.min_le_left _ _
    omega
  · intro hv g hg
    rw [train_token_to_id, withIds_map_fst, rankedNgrams, if_neg (by omega : ¬ tok.vocab_size ≠ -1)]
    refine ((sortedCounts_perm tok.n corpus).map Prod.fst).mem_iff.mpr ?_
    exact (counts_keys_mem tok.n corpus g).mpr hg

/-- Witness for C4: a positive bound is respected, and with the `-1` sentinel
an observed bigram is retained. -/
theorem train_vocab_bound_witness :
    (((NgramTokenizer.train ⟨1, 2, [], []⟩ ["a b c"]).len : Int) ≤ 2)
    ∧ ["b", "c"] ∈ ((NgramTokenizer.train ⟨2, -1, [], []⟩ ["a b c"]).token_to_id).map Prod.fst :=
  ⟨(train_vocab_bound ⟨1, 2, [], []⟩ ["a b c"]).1 (by decide),
   (train_vocab_bound ⟨2, -1, [], []⟩ ["a b c"]).2 rfl ["b", "c"] (by decide)⟩

/-! ### Window extraction count -/

/-- C5: for a document segmented into `k` units and `n ≥ 1`, the number of
length-`n` windows extracted (by the extraction step shared by `train` and
`tokenize`) is `max 0 (k - n + 1)`, and the window at index `i` is exactly
the `n` units starting at offset `i` — duplicates among windows are kept. -/
theorem ngram_window_count (n : Int) (ws : List String) (h : 1 ≤ n) :
    ((ngramsOf n ws).length : Int) = max 0 ((ws.length : Int) - n + 1)
    ∧ ∀ i : Nat, (i : Int) < (ws.length : Int) - n + 1 →
        (ngramsOf n ws)[i]? = some ((ws.drop i).take n.toNat) := by
  constructor
  · rw [ngramsOf, List.length_map, List.length_range, Int.toNat_eq_max]
    exact max_comm _ _
  · intro i hi
    have hit : i < ((ws.length : Int) - n + 1).toNat := by omega
    rw [ngramsOf, List.getElem?_map, List.getElem?_range hit, Option.map_some']
    refine congrArg some ?_
    rw [pySlice, if_neg (by omega : ¬ (i : Int) + n < 0)]
    have ht : ((i : Int) + n).toNat = i + n.toNat := by omega
    rw [ht, List.drop_take]
    refine congrArg (fun m => List.take m (ws.drop i)) ?_
    omega

/-- Witness for C5 at `n = 2` on a three-unit document: two windows. -/
theorem ngram_window_count_witness :
    ((1 : Int) ≤ 2)
    ∧ (((ngramsOf 2 (convert_text_to_words "a b c")).length : Int)
          = max 0 (((convert_text_to_words "a b c").length : Int) - 2 + 1)
        ∧ ∀ i : Nat, (i : Int) < ((convert_text_to_words "a b c").length : Int) - 2 + 1 →
            (ngramsOf 2 (convert_text_to_words "a b c"))[i]?
              = some (((convert_text_to_words "a b c").drop i).take (2 : Int).toNat)) :=
  ⟨by decide, ngram_window_count 2 (convert_text_to_words "a b c") (by decide)⟩

/-! ### Segmentation -/

theorem isWordChar_ranges {c : Char} (h : isWordChar c = true) :
    (48 ≤ c.toNat ∧ c.toNat ≤ 57) ∨ (65 ≤ c.toNat ∧ c.toNat ≤ 90) ∨
    (97 ≤ c.toNat ∧ c.toNat ≤ 122) ∨ c.toNat = 95 := by
  rw [isWordChar, Bool.or_eq_true] at h
  rcases h with h | h
  · rw [Char.isAlphanum, Bool.or_eq_true] at h
    rcases h with h | h
    · rw [Char.isAlpha, Bool.or_eq_true] at h
      rcases h with h | h
      · rw [Char.isUpper] at h
        simp only [Bool.and_eq_true, decide_eq_true_eq] at h
        exact Or.inr (Or.inl ⟨h.1, h.2⟩)
      · rw [Char.isLower] at h
        simp only [Bool.and_eq_true, decide_eq_true_eq] at h
        exact Or.inr (Or.inr (Or.inl ⟨h.1, h.2⟩))
    · rw [Char.isDigit] at h
      simp only [Bool.and_eq_true, decide_eq_true_eq] at h
      exact Or.inl ⟨h.1, h.2⟩
  · have hc : c = '_' := beq_iff_eq.mp h
    subst hc
    exact Or.inr (Or.inr (Or.inr rfl))

/-- The program's two character classes are disjoint: a `\w` character is
never a `\s` character. -/
theorem isWordChar_not_pySpace {c : Char} (h : isWordChar c = true) :
    pyIsSpace c = false := by
  have hr := isWordChar_ranges h
  rw [pyIsSpace, decide_eq_false_iff_not]
  intro hsp
  rcases hr with ⟨h1, h2⟩ | ⟨h1, h2⟩ | ⟨h1, h2⟩ | h1 <;> omega

/-- Inside a word run (`acc` nonempty), the scanner finishes exactly the
maximal word-character run and then restarts after it: the emitted unit is the
run read so far extended by `takeWhile isWord`, and scanning resumes at
`dropWhile isWord`.  This holds for every class assignment. -/
theorem segmentCharsWith_run (isWord isSpace : Char → Bool) :
    ∀ (cs acc : List Char), acc ≠ [] →
      segmentCharsWith isWord isSpace cs acc
        = String.mk (acc.reverse ++ cs.takeWhile isWord)
            :: segmentWith isWord isSpace (cs.dropWhile isWord) := by
  intro cs
  induction cs with
  | nil =>
    intro acc hacc
    rw [segmentCharsWith, if_neg (by simpa [List.isEmpty_iff] using hacc)]
    rw [List.takeWhile_nil, List.dropWhile_nil, List.append_nil]
    rfl
  | cons c cs' ih =>
    intro acc hacc
    rw [segmentCharsWith]
    by_cases hw : isWord c
    · rw [if_pos hw, ih (c :: acc) (by simp), List.takeWhile_cons_of_pos hw,
        List.dropWhile_cons_of_pos hw, List.reverse_cons, List.append_assoc,
        List.singleton_append]
    · rw [if_neg hw, if_neg (by simpa [List.isEmpty_iff] using hacc),
        List.takeWhile_cons_of_neg hw, List.dropWhile_cons_of_neg hw,
        List.append_nil, List.singleton_append]
      rw [segmentWith, segmentCharsWith, if_neg hw]
      rw [if_pos (by rfl : (([] : List Char)).isEmpty = true), List.nil_append]

/-- The scanner satisfies the left-to-right one-pass recursion of the regex
`\w+|[^\w\s]`, for every class assignment: a word character opens a unit that
is exactly the maximal run of word characters from that position, any other
non-space character is its own single-character unit, and a space character is
consumed without producing a unit. -/
theorem segmentWith_eqns (isWord isSpace : Char → Bool) :
    segmentWith isWord isSpace [] = []
    ∧ (∀ (c : Char) (cs : List Char), isWord c = true →
        segmentWith isWord isSpace (c :: cs)
          = String.mk (c :: cs.takeWhile isWord)
              :: segmentWith isWord isSpace (cs.dropWhile isWord))
    ∧ (∀ (c : Char) (cs : List Char), isWord c = false → isSpace c = true →
        segmentWith isWord isSpace (c :: cs) = segmentWith isWord isSpace cs)
    ∧ (∀ (c : Char) (cs : List Char), isWord c = false → isSpace c = false →
        segmentWith isWord isSpace (c :: cs)
          = String.mk [c] :: segmentWith isWord isSpace cs) := by
  refine ⟨rfl, ?_, ?_, ?_⟩
  · intro c cs hw
    rw [segmentWith, segmentCharsWith, if_pos hw,
      segmentCharsWith_run isWord isSpace cs [c] (by simp)]
    rfl
  · intro c cs hw hs
    have hw' : ¬ isWord c = true := by simp [hw]
    rw [segmentWith, segmentCharsWith, if_neg hw', if_pos hs]
    rw [if_pos (by rfl : (([] : List Char)).isEmpty = true), List.nil_append]
    rfl
  · intro c cs hw hs
    have hw' : ¬ isWord c = true := by simp [hw]
    have hs' : ¬ isSpace c = true := by simp [hs]
    rw [segmentWith, segmentCharsWith, if_neg hw', if_neg hs']
    rw [if_pos (by rfl : (([] : List Char)).isEmpty = true), List.nil_append]
    rfl

theorem segmentCharsWith_units (isWord isSpace : Char → Bool) :
    ∀ (cs acc : List Char), acc.all isWord = true →
      ∀ u ∈ segmentCharsWith isWord isSpace cs acc,
        (u.data ≠ [] ∧ u.data.all isWord = true) ∨
        (∃ c : Char, u = String.mk [c] ∧ isWord c = false ∧ isSpace c = false) := by
  intro cs
  induction cs with
  | nil =>
    intro acc hacc u hu
    rw [segmentCharsWith] at hu
    by_cases hemp : acc.isEmpty
    · rw [if_pos hemp] at hu
      simp at hu
    · rw [if_neg hemp] at hu
      rcases List.mem_singleton.mp hu with rfl
      refine Or.inl ⟨?_, ?_⟩
      · show acc.reverse ≠ []
        simpa [List.isEmpty_iff] using hemp
      · show acc.reverse.all isWord = true
        rw [List.all_eq_true] at hacc ⊢
        intro x hx
        exact hacc x (List.mem_reverse.mp hx)
  | cons c cs' ih =>
    intro acc hacc u hu
    rw [segmentCharsWith] at hu
    by_cases hw : isWord c
    · rw [if_pos hw] at hu
      refine ih (c :: acc) ?_ u hu
      rw [List.all_cons, hw, hacc]
      rfl
    · rw [if_neg hw] at hu
      rcases List.mem_append.mp hu with hflush | hrest
      · by_cases hemp : acc.isEmpty
        · rw [if_pos hemp] at hflush
          simp at hflush
        · rw [if_neg hemp] at hflush
          rcases List.mem_singleton.mp hflush with rfl
          refine Or.inl ⟨?_, ?_⟩
          · show acc.reverse ≠ []
            simpa [List.isEmpty_iff] using hemp
          · show acc.reverse.all isWord = true
            rw [List.all_eq_true] at hacc ⊢
            intro x hx
            exact hacc x (List.mem_reverse.mp hx)
      · by_cases hs : isSpace c
        · rw [if_pos hs] at hrest
          exact ih [] rfl u hrest
        · rw [if_neg hs] at hrest
          rcases List.mem_cons.mp hrest with rfl | hrest'
          · exact Or.inr ⟨c, rfl, Bool.not_eq_true _ ▸ hw, Bool.not_eq_true _ ▸ hs⟩
          · exact ih [] rfl u hrest'

theorem segmentCharsWith_flatten (isWord isSpace : Char → Bool)
    (hdisj : ∀ c : Char, isWord c = true → isSpace c = false) :
    ∀ (cs acc : List Char),
      ((segmentCharsWith isWord isSpace cs acc).map String.data).flatten
        = acc.reverse ++ cs.filter (fun c => !(isSpace c)) := by
  intro cs
  induction cs with
  | nil =>
    intro acc
    rw [segmentCharsWith]
    by_cases hemp : acc.isEmpty
    · rw [if_pos hemp]
      have : acc = [] := List.isEmpty_iff.mp hemp
      subst this
      rfl
    · rw [if_neg hemp]
      simp
  | cons c cs' ih =>
    intro acc
    rw [segmentCharsWith]
    by_cases hw : isWord c
    · rw [if_pos hw, ih (c :: acc)]
      have hnw : isSpace c = false := hdisj c hw
      rw [List.filter_cons, List.reverse_cons]
      simp [hnw]
    · rw [if_neg hw]
      have hflush :
          (((if acc.isEmpty then [] else [String.mk acc.reverse]) : List String).map
            String.data).flatten = acc.reverse := by
        by_cases hemp : acc.isEmpty
        · rw [if_pos hemp]
          have : acc = [] := List.isEmpty_iff.mp hemp
          subst this
          rfl
        · rw [if_neg hemp]
          simp
      by_cases hs : isSpace c
      · rw [if_pos hs, List.map_append, List.flatten_append, hflush, ih []]
        rw [List.filter_cons]
        simp [hs]
      · rw [if_neg hs, List.map_append, List.flatten_append, hflush]
        rw [List.filter_cons]
        simp only [hs, Bool.not_false, if_true]
        rw [List.map_cons, List.flatten_cons, ih []]
        simp

/-- C6: segmentation is the left-to-right scan of `\w+|[^\w\s]` — for every
assignment of the regex's two character classes, a word character opens a unit
covering exactly the maximal run of word characters, every other non-space
character becomes its own single-character unit, and space characters are
discarded; instantiated at the program's classes, every produced unit is a
nonempty word-character run or a single non-word non-space character, the
concatenation of the units is the input minus its whitespace, the spec's
sample sentence yields the listed units, and the empty string yields the
empty sequence. -/
theorem segmentation_spec :
    (∀ (isWord isSpace : Char → Bool),
      segmentWith isWord isSpace [] = []
      ∧ (∀ (c : Char) (cs : List Char), isWord c = true →
          segmentWith isWord isSpace (c :: cs)
            = String.mk (c :: cs.takeWhile isWord)
                :: segmentWith isWord isSpace (cs.dropWhile isWord))
      ∧ (∀ (c : Char) (cs : List Char), isWord c = false → isSpace c = true →
          segmentWith isWord isSpace (c :: cs) = segmentWith isWord isSpace cs)
      ∧ (∀ (c : Char) (cs : List Char), isWord c = false → isSpace c = false →
          segmentWith isWord isSpace (c :: cs)
            = String.mk [c] :: segmentWith isWord isSpace cs))
    ∧ (∀ s : String, ∀ u ∈ convert_text_to_words s,
        (u.data ≠ [] ∧ u.data.all isWordChar = true) ∨
        (∃ c : Char, u = String.mk [c] ∧ isWordChar c = false ∧ pyIsSpace c = false))
    ∧ (∀ s : String,
        ((convert_text_to_words s).map String.data).flatten
          = s.data.filter (fun c => !(pyIsSpace c)))
    ∧ convert_text_to_words "This movie was really bad, but bad." =
        ["This", "movie", "was", "really", "bad", ",", "but", "bad", "."]
    ∧ convert_text_to_words "" = [] := by
  refine ⟨segmentWith_eqns,
    fun s => segmentCharsWith_units isWordChar pyIsSpace s.data [] rfl,
    fun s => ?_, by decide, rfl⟩
  rw [convert_text_to_words, segmentWith,
    segmentCharsWith_flatten isWordChar pyIsSpace (fun c => isWordChar_not_pySpace)]
  rfl

/-- Witness for C6: the three guarded scan equations at concrete characters —
a word character absorbing its maximal run, a discarded space, and a
punctuation character forming its own unit. -/
theorem segmentation_spec_witness :
    segmentWith isWordChar pyIsSpace ('a' :: 'b' :: ' ' :: 'c' :: [])
      = String.mk ('a' :: (('b' :: ' ' :: 'c' :: []).takeWhile isWordChar))
          :: segmentWith isWordChar pyIsSpace (('b' :: ' ' :: 'c' :: []).dropWhile isWordChar)
    ∧ segmentWith isWordChar pyIsSpace (' ' :: 'c' :: [])
        = segmentWith isWordChar pyIsSpace ('c' :: [])
    ∧ segmentWith isWordChar pyIsSpace ('!' :: [])
        = String.mk ['!'] :: segmentWith isWordChar pyIsSpace [] :=
  ⟨(segmentation_spec.1 isWordChar pyIsSpace).2.1 'a' _ (by decide),
   (segmentation_spec.1 isWordChar pyIsSpace).2.2.1 ' ' _ (by decide) (by decide),
   (segmentation_spec.1 isWordChar pyIsSpace).2.2.2 '!' _ (by decide) (by decide)⟩

/-! ### Construction, retraining, read-only tokenize, non-positive bounds -/

/-- Counterexample to C7 as stated: constructing with `n = 0 < 1` and a
bounded `vocab_size = 0 < 1` does not raise — the constructor returns an
instance with those exact parameters. -/
theorem construction_no_validation :
    mkNgramTokenizer 0 0 = Except.ok ⟨0, 0, [], []⟩ := rfl

/-- C7 (amended): construction never reports an error: for every `n` and
`vocab_size`, including `n < 1` and bounded `vocab_size < 1`, an instance is
produced carrying those parameters and empty vocabulary maps. -/
theorem construction_always_ok (n vocab_size : Int) :
    mkNgramTokenizer n vocab_size =
      Except.ok { n := n, vocab_size := vocab_size, token_to_id := [], id_to_token := [] } :=
  rfl

/-- C8: training twice equals training once with the second corpus on a
freshly constructed instance with the same parameters — the second `train`
replaces the vocabulary with no residue of the first. -/
theorem retrain_replaces_state (tok fresh : NgramTokenizer) (c1 c2 : List String)
    (hfresh : mkNgramTokenizer tok.n tok.vocab_size = Except.ok fresh) :
    (tok.train c1).train c2 = fresh.train c2 := by
  rw [mkNgramTokenizer] at hfresh
  have ht : fresh = ⟨tok.n, tok.vocab_size, [], []⟩ := (Except.ok.inj hfresh).symm
  subst ht
  rfl

/-- Witness for C8 on concrete corpora. -/
theorem retrain_replaces_state_witness :
    (NgramTokenizer.train (NgramTokenizer.train ⟨1, -1, [], []⟩ ["a a"]) ["b c"])
      = NgramTokenizer.train ⟨1, -1, [], []⟩ ["b c"] :=
  retrain_replaces_state ⟨1, -1, [], []⟩ ⟨1, -1, [], []⟩ ["a a"] ["b c"] rfl

/-- C9: a `tokenize` call leaves the instance state unchanged — `n`,
`vocab_size`, `token_to_id` and `id_to_token` are identical before and after
the call, in either mode. -/
theorem tokenize_preserves_state (tok : NgramTokenizer) (text : String)
    ( return_token_ids : Bool) :
    ((tok.tokenizeCall text return_token_ids).2.n = tok.n
      ∧ (tok.tokenizeCall text return_token_ids).2.vocab_size = tok.vocab_size
      ∧ (tok.tokenizeCall text return_token_ids).2.token_to_id = tok.token_to_id
      ∧ (tok.tokenizeCall text return_token_ids).2.id_to_token = tok.id_to_token)
    ∧ (tok.tokenizeCall text return_token_ids).2 = tok := by
  cases return_token_ids <;> exact ⟨⟨rfl, rfl, rfl, rfl⟩, rfl⟩

/-- C10: non-positive `vocab_size` values other than `-1` are not
rejected: `vocab_size = 0` yields an empty vocabulary, and `vocab_size = -k`
for `k ≥ 2` keeps all but the `k` lowest-ranked of the `D` distinct n-grams
(the first `D - k` entries of the ranking; size `max 0 (D - k)`), because the
truncation is the Python slice `sorted_ngrams[:vocab_size]`. -/
theorem train_nonpositive_vocab (tok : NgramTokenizer) (corpus : List String) :
    (tok.vocab_size = 0 →
      (tok.train corpus).token_to_id = [] ∧ (tok.train corpus).len = 0)
    ∧ (∀ k : Nat, 2 ≤ k → tok.vocab_size = -(k : Int) →
        (tok.train corpus).token_to_id
          = withIds 0 ((sortedCounts tok.n corpus).take
              ((countNgrams tok.n corpus).length - k))
        ∧ ((tok.train corpus).len : Int)
          = max 0 (((countNgrams tok.n corpus).length : Int) - (k : Int))) := by
  constructor
  · intro hv
    have h0 : (tok.train corpus).token_to_id = [] := by
      rw [train_token_to_id, rankedNgrams, hv, if_pos (by decide : (0 : Int) ≠ -1),
        pyTakeSlice, if_neg (by decide : ¬ (0 : Int) < 0)]
      rfl
    exact ⟨h0, by rw [NgramTokenizer.len, h0]; rfl⟩
  · intro k hk hv
    have hlen : (sortedCounts tok.n corpus).length = (countNgrams tok.n corpus).length :=
      List.length_insertionSort descFreq _
    have hranked : rankedNgrams tok.n tok.vocab_size corpus
        = (sortedCounts tok.n corpus).take ((countNgrams tok.n corpus).length - k) := by
      rw [rankedNgrams, hv, if_pos (by omega : -(k : Int) ≠ -1), pyTakeSlice,
        if_pos (by omega : -(k : Int) < 0), hlen]
      refine congrArg (fun m => List.take m (sortedCounts tok.n corpus)) ?_
      omega
    constructor
    · rw [train_token_to_id, hranked]
    · rw [NgramTokenizer.len, train_token_to_id, withIds_length, hranked,
        List.length_take, hlen]
      omega

/-- Witness for C10: `vocab_size = 0` gives the empty vocabulary, and
`vocab_size = -2` on a corpus with three distinct unigrams keeps one. -/
theorem train_nonpositive_vocab_witness :
    ((NgramTokenizer.train ⟨1, 0, [], []⟩ ["a"]).token_to_id = []
      ∧ (NgramTokenizer.train ⟨1, 0, [], []⟩ ["a"]).len = 0)
    ∧ ((NgramTokenizer.train ⟨1, -2, [], []⟩ ["a b c a"]).token_to_id
          = withIds 0 ((sortedCounts 1 ["a b c a"]).take
              ((countNgrams 1 ["a b c a"]).length - 2))
        ∧ ((NgramTokenizer.train ⟨1, -2, [], []⟩ ["a b c a"]).len : Int)
          = max 0 (((countNgrams 1 ["a b c a"]).length : Int) - (2 : Int))) :=
  ⟨(train_nonpositive_vocab ⟨1, 0, [], []⟩ ["a"]).1 rfl,
   (train_nonpositive_vocab ⟨1, -2, [], []⟩ ["a b c a"]).2 2 (by decide) (by decide)⟩
